import Mathlib

/-!
Shallow embedding of the MemStore in-memory object store (src/src/os/MemStore.h):
objects with a polymorphic payload (contiguous bufferlist vs paged), per-object
xattr/omap state, collections with a dual index (unordered `object_hash` for
lookup, ordered `object_map` for iteration), the versioned binary
encode/decode envelopes, and the omap iterator.

Bytes are `Fin 256`; C++ `std::string` keys and `bufferlist` payloads are byte
lists; `std::map` is a key-sorted association list; `ceph::unordered_map` is an
association list with no order maintained.  Heap identity of a refcounted
`Object*` is modelled by an address tag on `ObjectRef`, allocated from a
per-collection counter.
-/

namespace MemStore

/-- A byte. -/
abbrev Byte : Type := Fin 256

/-- A byte string: the model of `bufferlist`, `bufferptr` and `std::string`. -/
abbrev Bytes : Type := List Byte

/-- An omap / xattr key (`std::string`), ordered lexicographically byte-wise. -/
abbrev Str : Type := Bytes

/-- An opaque object identifier (`ghobject_t`); its comparator is modelled by
the order on `Nat`. -/
abbrev Ghobject : Type := Nat

section Maps

variable {κ : Type} [LinearOrder κ] {α : Type}

/-- Lookup in an association list (`std::map::find` / `unordered_map::find`). -/
def lookup (k : κ) : List (κ × α) → Option α
  | [] => none
  | p :: t => if p.1 = k then some p.2 else lookup k t

/-- Key-sorted insert-or-assign (`std::map::operator[] = v`). -/
def insAssign (k : κ) (v : α) : List (κ × α) → List (κ × α)
  | [] => [(k, v)]
  | p :: t =>
    if k < p.1 then (k, v) :: p :: t
    else if p.1 = k then (k, v) :: t
    else p :: insAssign k v t

/-- Key-sorted insert that keeps an existing entry (`std::map::insert`). -/
def insNew (k : κ) (v : α) : List (κ × α) → List (κ × α)
  | [] => [(k, v)]
  | p :: t =>
    if k < p.1 then (k, v) :: p :: t
    else if p.1 = k then p :: t
    else p :: insNew k v t

/-- Insert into an unordered map, keeping an existing entry
(`unordered_map::insert` / the keep branch of `emplace`). -/
def hIns (k : κ) (v : α) (m : List (κ × α)) : List (κ × α) :=
  if (lookup k m).isSome then m else (k, v) :: m

/-- Erase the entry of a key (`std::map::erase` / `unordered_map::erase`). -/
def eraseKey (k : κ) : List (κ × α) → List (κ × α)
  | [] => []
  | p :: t => if p.1 = k then t else p :: eraseKey k t

/-- The keys of a map, in storage order. -/
def keys (m : List (κ × α)) : List κ := m.map Prod.fst

/-- Index of `std::map::lower_bound k` in a key-sorted list: the number of
leading entries whose key is `< k`. -/
def lbIdx (k : κ) : List (κ × α) → Nat
  | [] => 0
  | p :: t => if p.1 < k then lbIdx k t + 1 else 0

/-- Index of `std::map::upper_bound k` in a key-sorted list: the number of
leading entries whose key is `≤ k`. -/
def ubIdx (k : κ) : List (κ × α) → Nat
  | [] => 0
  | p :: t => if p.1 ≤ k then ubIdx k t + 1 else 0

/-- Strictly increasing keys: the storage invariant of `std::map`. -/
def SortedKeys (m : List (κ × α)) : Prop := (keys m).Pairwise (· < ·)

instance (m : List (κ × α)) : Decidable (SortedKeys m) := by
  unfold SortedKeys; infer_instance

end Maps

/-! ## The byte-level codec (`include/encoding.h`, `ENCODE_START` family) -/

/-- Decode failure: the fatal error regime of `buffer::malformed_input` /
`buffer::end_of_buffer`. -/
inductive DecErr : Type
  | truncated
  | versionTooNew
  | overrun
deriving DecidableEq

/-- Result of decoding a value from a byte stream: the value and the rest. -/
abbrev Dec (α : Type) : Type := Except DecErr (α × Bytes)

/-- Little-endian fixed-width encoding of a natural in `w` bytes. -/
def encLE : Nat → Nat → Bytes
  | 0, _ => []
  | w + 1, n => ⟨n % 256, Nat.mod_lt n (by omega)⟩ :: encLE w (n / 256)

/-- Little-endian fixed-width decoding of a natural from `w` bytes. -/
def decLE : Nat → Bytes → Dec Nat
  | 0, s => .ok (0, s)
  | _ + 1, [] => .error .truncated
  | w + 1, b :: t =>
    match decLE w t with
    | .ok (m, rest) => .ok (b.val + 256 * m, rest)
    | .error e => .error e

/-- Take `n` raw bytes off the stream. -/
def readN (n : Nat) (s : Bytes) : Dec Bytes :=
  if n ≤ s.length then .ok (s.take n, s.drop n) else .error .truncated

/-- Encode a length-prefixed byte string (`bufferlist`, `bufferptr`,
`std::string`): a 32-bit length then the bytes. -/
def encBytes (b : Bytes) : Bytes := encLE 4 b.length ++ b

/-- Decode a length-prefixed byte string. -/
def decBytes (s : Bytes) : Dec Bytes :=
  match decLE 4 s with
  | .ok (n, s1) => readN n s1
  | .error e => .error e

/-- Encode a `bool` as one byte. -/
def encBool (b : Bool) : Bytes := [if b then 1 else 0]

/-- Decode a `bool` from one byte (nonzero is `true`). -/
def decBool : Bytes → Dec Bool
  | [] => .error .truncated
  | b :: t => .ok (decide (b.val ≠ 0), t)

/-- Encode map entries in storage (iteration) order. -/
def encEntries {κ α : Type} (encK : κ → Bytes) (encV : α → Bytes) :
    List (κ × α) → Bytes
  | [] => []
  | p :: t => encK p.1 ++ encV p.2 ++ encEntries encK encV t

/-- Encode a map: 32-bit entry count, then the entries in order. -/
def encMap {κ α : Type} (encK : κ → Bytes) (encV : α → Bytes)
    (m : List (κ × α)) : Bytes :=
  encLE 4 m.length ++ encEntries encK encV m

/-- Decode `n` map entries, assigning each into the accumulator
(`m[k] = v` in the generic container decoder). -/
def decEntries {κ : Type} [LinearOrder κ] {α : Type}
    (decK : Bytes → Dec κ) (decV : Bytes → Dec α) :
    Nat → List (κ × α) → Bytes → Dec (List (κ × α))
  | 0, acc, s => .ok (acc, s)
  | n + 1, acc, s =>
    match decK s with
    | .error e => .error e
    | .ok (k, s1) =>
      match decV s1 with
      | .error e => .error e
      | .ok (v, s2) => decEntries decK decV n (insAssign k v acc) s2

/-- Decode a map: the generic container decoder clears the map, reads the
count, then assigns each decoded pair. -/
def decMap {κ : Type} [LinearOrder κ] {α : Type}
    (decK : Bytes → Dec κ) (decV : Bytes → Dec α) (s : Bytes) :
    Dec (List (κ × α)) :=
  match decLE 4 s with
  | .ok (n, s1) => decEntries decK decV n [] s1
  | .error e => .error e

/-- The `ENCODE_START(v, compat, bl) … ENCODE_FINISH(bl)` envelope: one byte
of structure version, one byte of minimum compatible version, a 32-bit payload
length, then the payload. -/
def encEnv (v compat : Nat) (payload : Bytes) : Bytes :=
  encLE 1 v ++ encLE 1 compat ++ encLE 4 payload.length ++ payload

/-- The `DECODE_START(supported, p) … DECODE_FINISH(p)` envelope: read the
version pair, fail if the stream's compatible version exceeds the supported
one, read and bound-check the length, run the body, fail if the body consumed
past the declared end, then skip to the declared end. -/
def decEnv {α : Type} (supported : Nat) (body : Bytes → Dec α) (s : Bytes) :
    Dec α :=
  match s with
  | _ :: cv :: s2 =>
    if supported < cv.val then .error .versionTooNew
    else
      match decLE 4 s2 with
      | .error e => .error e
      | .ok (len, s3) =>
        if s3.length < len then .error .truncated
        else
          match body s3 with
          | .error e => .error e
          | .ok (a, r) =>
            if len < s3.length - r.length then .error .overrun
            else .ok (a, s3.drop len)
  | _ => .error .truncated

/-! ## Objects -/

/-- The payload of an object: the two `MemStore::Object` subclasses.
`bufferlist` is `BufferlistObject::data`; `pageset` carries the page size the
`PageSetObject` was constructed with, `data_len`, and the lazily allocated
pages (page index to page content). -/
inductive Payload : Type
  | bufferlist (data : Bytes)
  | pageset (page_size : Nat) (data_len : Nat) (pages : List (Nat × Bytes))
deriving DecidableEq

/-- Logical size of a payload: `BufferlistObject::get_size` returns
`data.length()`, `PageSetObject::get_size` returns `data_len`. -/
def Payload.get_size : Payload → Nat
  | .bufferlist data => data.length
  | .pageset _ data_len _ => data_len

/-- The state of a `MemStore::Object`: payload plus xattr map, omap header and
ordered omap. -/
structure Object : Type where
  data : Payload
  xattr : List (Str × Bytes)
  omap_header : Bytes
  omap : List (Str × Bytes)
deriving DecidableEq

/-- Size of the object (the virtual `get_size`). -/
def Object.get_size (o : Object) : Nat := o.data.get_size

/-- The fields shared by both variants, in encoding order:
`Object::encode_base` encodes xattr, then the omap header, then the omap. -/
def Object.encode_base (o : Object) : Bytes :=
  encMap encBytes encBytes o.xattr ++ encBytes o.omap_header ++
    encMap encBytes encBytes o.omap

/-- Mirror of `Object::decode_base`: xattr, omap header, omap, in order. -/
def Object.decode_base (s : Bytes) :
    Dec (List (Str × Bytes) × Bytes × List (Str × Bytes)) :=
  match decMap decBytes decBytes s with
  | .error e => .error e
  | .ok (xa, s1) =>
    match decBytes s1 with
    | .error e => .error e
    | .ok (hdr, s2) =>
      match decMap decBytes decBytes s2 with
      | .error e => .error e
      | .ok (om, s3) => .ok ((xa, hdr, om), s3)

/-- Modelled from the spec: the page container's own encoding (PageSet.h is
not among the repository files staged here).  Per the spec every aggregate is
length-prefixed: a 32-bit page count, then each (64-bit page index,
length-prefixed page content) in index order. -/
def encPageSet (pages : List (Nat × Bytes)) : Bytes :=
  encMap (encLE 8) encBytes pages

/-- Modelled from the spec: decoding of the page container, mirroring
`encPageSet`. -/
def decPageSet (s : Bytes) : Dec (List (Nat × Bytes)) :=
  decMap (fun t => decLE 8 t) decBytes s

/-- The virtual `encode`: `BufferlistObject::encode` wraps
(data, base fields) in a version-1 envelope; `PageSetObject::encode` wraps
(data_len, pages, base fields). -/
def Object.encode (o : Object) : Bytes :=
  match o.data with
  | .bufferlist d => encEnv 1 1 (encBytes d ++ o.encode_base)
  | .pageset _ dl pgs => encEnv 1 1 (encLE 8 dl ++ encPageSet pgs ++ o.encode_base)

/-- The virtual `decode`, dispatched on the variant the enclosing collection
creates (`use_page_set`), with the page size the `PageSetObject` constructor
received. -/
def Object.decode (use_page_set : Bool) (page_size : Nat) (s : Bytes) :
    Dec Object :=
  decEnv 1 (fun s0 =>
    if use_page_set then
      match decLE 8 s0 with
      | .error e => .error e
      | .ok (dl, s1) =>
        match decPageSet s1 with
        | .error e => .error e
        | .ok (pgs, s2) =>
          match Object.decode_base s2 with
          | .error e => .error e
          | .ok ((xa, hdr, om), s3) =>
            .ok (⟨.pageset page_size dl pgs, xa, hdr, om⟩, s3)
    else
      match decBytes s0 with
      | .error e => .error e
      | .ok (d, s1) =>
        match Object.decode_base s1 with
        | .error e => .error e
        | .ok ((xa, hdr, om), s2) =>
          .ok (⟨.bufferlist d, xa, hdr, om⟩, s2)) s

/-- A reference to a heap-allocated object (`ObjectRef`,
`boost::intrusive_ptr<Object>`): the address tag models pointer identity. -/
structure ObjectRef : Type where
  addr : Nat
  obj : Object
deriving DecidableEq

/-! ## Collections -/

/-- A `MemStore::Collection`: the configuration flags read from the context
(`memstore_page_set`, `memstore_page_size`), the unordered lookup index
`object_hash`, the ordered iteration index `object_map`, the collection xattrs,
and the allocator counter modelling fresh heap addresses. -/
structure Collection : Type where
  use_page_set : Bool
  page_size : Nat
  object_hash : List (Ghobject × ObjectRef)
  object_map : List (Ghobject × ObjectRef)
  xattr : List (Str × Bytes)
  next_addr : Nat
deriving DecidableEq

/-- The freshly constructed collection: both indices empty
(`Collection::Collection`). -/
def Collection.init (use_page_set : Bool) (page_size : Nat) : Collection :=
  ⟨use_page_set, page_size, [], [], [], 0⟩

/-- An empty payload of the collection's configured variant:
`new PageSetObject(page_size)` or `new BufferlistObject()`. -/
def Collection.newPayload (c : Collection) : Payload :=
  if c.use_page_set then .pageset c.page_size 0 [] else .bufferlist []

/-- `Collection::create_object`: allocate a fresh object of the configured
variant; the returned collection carries the bumped allocator counter. -/
def Collection.create_object (c : Collection) : ObjectRef × Collection :=
  (⟨c.next_addr, ⟨c.newPayload, [], [], []⟩⟩, { c with next_addr := c.next_addr + 1 })

/-- `Collection::get_object`: find in `object_hash`; an empty reference when
absent; the collection itself is returned unchanged (the method only takes the
read lock and looks up). -/
def Collection.get_object (c : Collection) (oid : Ghobject) :
    Option ObjectRef × Collection :=
  match lookup oid c.object_hash with
  | none => (none, c)
  | some o => (some o, c)

/-- `Collection::get_or_create_object`: `emplace` into `object_hash`; when the
key was absent, create an object and store it in the hash slot and in
`object_map`; return the stored reference. -/
def Collection.get_or_create_object (c : Collection) (oid : Ghobject) :
    ObjectRef × Collection :=
  match lookup oid c.object_hash with
  | some o => (o, c)
  | none =>
    let (o, c1) := c.create_object
    (o, { c1 with
            object_hash := (oid, o) :: c1.object_hash,
            object_map := insAssign oid o c1.object_map })

/-- Entries of `Collection::encode`'s object loop: each key
(`ghobject_t`, modelled fixed-width) followed by the object's own encoding, in
`object_map` iteration order. -/
def encObjEntries : List (Ghobject × ObjectRef) → Bytes
  | [] => []
  | p :: t => encLE 8 p.1 ++ p.2.obj.encode ++ encObjEntries t

/-- `Collection::encode`: a version-1 envelope around the collection xattrs,
the `use_page_set` flag, a 32-bit object count, and the (key, object) pairs in
`object_map` order. -/
def Collection.encode (c : Collection) : Bytes :=
  encEnv 1 1 (encMap encBytes encBytes c.xattr ++ encBool c.use_page_set ++
    encLE 4 c.object_map.length ++ encObjEntries c.object_map)

/-- The decode loop of `Collection::decode`: for each of `s` entries, decode
the key, create an object of the decoded collection's variant, decode into it,
and insert it into `object_map` and `object_hash`. -/
def decObjLoop (use_page_set : Bool) (page_size : Nat) :
    Nat → List (Ghobject × ObjectRef) → List (Ghobject × ObjectRef) → Nat →
    Bytes → Dec (List (Ghobject × ObjectRef) × List (Ghobject × ObjectRef) × Nat)
  | 0, om, oh, na, s => .ok ((om, oh, na), s)
  | n + 1, om, oh, na, s =>
    match decLE 8 s with
    | .error e => .error e
    | .ok (k, s1) =>
      match Object.decode use_page_set page_size s1 with
      | .error e => .error e
      | .ok (ob, s2) =>
        decObjLoop use_page_set page_size n
          (insNew k ⟨na, ob⟩ om) (hIns k ⟨na, ob⟩ oh) (na + 1) s2

/-- `Collection::decode`: a version-1 envelope; decode the xattrs and the
`use_page_set` flag into the collection, then the object count, then run the
object loop on the collection's indices. -/
def Collection.decode (c : Collection) (s : Bytes) : Dec Collection :=
  decEnv 1 (fun s0 =>
    match decMap decBytes decBytes s0 with
    | .error e => .error e
    | .ok (xa, s1) =>
      match decBool s1 with
      | .error e => .error e
      | .ok (ups, s2) =>
        match decLE 4 s2 with
        | .error e => .error e
        | .ok (n, s3) =>
          match decObjLoop ups c.page_size n c.object_map c.object_hash
              c.next_addr s3 with
          | .error e => .error e
          | .ok ((om, oh, na), s4) =>
            .ok ({ c with xattr := xa, use_page_set := ups,
                          object_map := om, object_hash := oh,
                          next_addr := na }, s4)) s

/-- `Collection::used_bytes`: a running sum of `get_size` over the
`object_map` entries. -/
def Collection.used_bytes (c : Collection) : Nat :=
  c.object_map.foldl (fun r p => r + p.2.obj.get_size) 0

/-- The locks a `Collection` method acquires on the index `RWLock`. -/
inductive LockOp : Type
  | rlockIndex
  | wlockIndex
deriving DecidableEq

/-- Index-lock acquisitions of `Collection::get_object`: `RWLock::RLocker`. -/
def get_object_locks : List LockOp := [.rlockIndex]

/-- Index-lock acquisitions of `Collection::get_or_create_object`:
`RWLock::WLocker`. -/
def get_or_create_object_locks : List LockOp := [.wlockIndex]

/-- Index-lock acquisitions of `Collection::used_bytes`: its body iterates
`object_map` without taking the `RWLock`. -/
def used_bytes_locks : List LockOp := []

/-- Modelled from the spec: the transaction engine's remove handler
(`MemStore::_remove`, whose body is not among the files staged here) deletes
the object from both collection indices. -/
def Collection.remove_object (c : Collection) (oid : Ghobject) : Collection :=
  { c with object_hash := eraseKey oid c.object_hash,
           object_map := eraseKey oid c.object_map }

/-- Modelled from the spec: `MemStore::_collection_move_rename` (body not
among the files staged here) moves an object between collections, optionally
renaming its key: when the old key is present in the source and the new key
absent in the destination, it is erased from both source indices and inserted
into both destination indices. -/
def collection_move_rename (src dst : Collection) (oldoid newoid : Ghobject) :
    Collection × Collection :=
  match lookup oldoid src.object_hash with
  | none => (src, dst)
  | some o =>
    if (lookup newoid dst.object_hash).isSome then (src, dst)
    else (src.remove_object oldoid,
          { dst with object_hash := hIns newoid o dst.object_hash,
                     object_map := insNew newoid o dst.object_map })

/-! ## Byte-range payload operations (bodies live in MemStore.cc) -/

/-- Modelled from the spec: `BufferlistObject::write` (MemStore.cc is not
among the files staged here): extends the buffer, zero-filling any gap between
the old end and the write offset, then splices the written bytes over the
range `[offset, offset + src.length)`. -/
def bufferlistWrite (data : Bytes) (offset : Nat) (src : Bytes) : Bytes :=
  data.take offset ++ List.replicate (offset - data.length) 0 ++ src ++
    data.drop (offset + src.length)

/-- Modelled from the spec: `BufferlistObject::read`: returns exactly `len`
bytes, zero-filling any portion beyond the buffer. -/
def bufferlistRead (data : Bytes) (offset len : Nat) : Bytes :=
  (List.range len).map (fun i => data.getD (offset + i) 0)

/-- A whole page of zeroes: an unallocated page reads as zero. -/
def zeroPage (page_size : Nat) : Bytes := List.replicate page_size 0

/-- The content of a page, zero when the page was never allocated. -/
def pageGet (page_size : Nat) (pages : List (Nat × Bytes)) (i : Nat) : Bytes :=
  (lookup i pages).getD (zeroPage page_size)

/-- The byte a paged payload holds at an absolute position. -/
def pagedByteAt (page_size : Nat) (pages : List (Nat × Bytes)) (p : Nat) :
    Byte :=
  (pageGet page_size pages (p / page_size)).getD (p % page_size) 0

/-- Write one byte at an absolute position, allocating the page lazily. -/
def pagedSetByte (page_size : Nat) (pages : List (Nat × Bytes)) (p : Nat)
    (v : Byte) : List (Nat × Bytes) :=
  insAssign (p / page_size)
    ((pageGet page_size pages (p / page_size)).set (p % page_size) v) pages

/-- Write a run of bytes starting at an absolute position. -/
def pagedWriteBytes (page_size : Nat) :
    List (Nat × Bytes) → Nat → Bytes → List (Nat × Bytes)
  | pages, _, [] => pages
  | pages, o, b :: t =>
    pagedWriteBytes page_size (pagedSetByte page_size pages o b) (o + 1) t

/-- Modelled from the spec: the virtual `Object::write` over either payload
(`BufferlistObject::write` / `PageSetObject::write`, MemStore.cc not staged
here): writes the bytes at the offset and extends the logical size to at least
`offset + src.length`. -/
def Object.write (o : Object) (offset : Nat) (src : Bytes) : Object :=
  match o.data with
  | .bufferlist d => { o with data := .bufferlist (bufferlistWrite d offset src) }
  | .pageset ps dl pgs =>
    { o with data := (Payload.pageset ps (max dl (offset + src.length))
        (pagedWriteBytes ps pgs offset src)) }

/-- Modelled from the spec: the virtual `Object::read` over either payload:
returns exactly `len` bytes, zero-filled beyond the data and in holes. -/
def Object.read (o : Object) (offset len : Nat) : Bytes :=
  match o.data with
  | .bufferlist d => bufferlistRead d offset len
  | .pageset ps _ pgs => (List.range len).map (fun i => pagedByteAt ps pgs (offset + i))

/-! ## The omap iterator -/

/-- `MemStore::OmapIteratorImpl`: a cursor over one object's ordered omap.
The C++ holds a `std::map` iterator; over the sorted association list the
cursor is the entry index, with `omap.length` standing for `end()`. -/
structure OmapIteratorImpl : Type where
  omap : List (Str × Bytes)
  pos : Nat
deriving DecidableEq

namespace OmapIteratorImpl

/-- `seek_to_first`: `it = omap.begin()`. -/
def seek_to_first (it : OmapIteratorImpl) : OmapIteratorImpl :=
  { it with pos := 0 }

/-- `lower_bound`: `it = omap.lower_bound(to)`. -/
def lower_bound (it : OmapIteratorImpl) (k : Str) : OmapIteratorImpl :=
  { it with pos := lbIdx k it.omap }

/-- `upper_bound`: `it = omap.upper_bound(after)`. -/
def upper_bound (it : OmapIteratorImpl) (after : Str) : OmapIteratorImpl :=
  { it with pos := ubIdx after it.omap }

/-- `valid`: `it != omap.end()`. -/
def valid (it : OmapIteratorImpl) : Bool := it.pos < it.omap.length

/-- `next`: `++it`. -/
def next (it : OmapIteratorImpl) : OmapIteratorImpl :=
  { it with pos := it.pos + 1 }

/-- `key`: `it->first`; in this total embedding the dereference is
option-valued, `none` exactly when the cursor is at `end()`. -/
def key (it : OmapIteratorImpl) : Option Str :=
  (it.omap.get? it.pos).map Prod.fst

/-- `value`: `it->second`, option-valued like `key`. -/
def value (it : OmapIteratorImpl) : Option Bytes :=
  (it.omap.get? it.pos).map Prod.snd

end OmapIteratorImpl

/-! ## Well-formedness -/

/-- A byte string short enough for its 32-bit length prefix. -/
def WFBytes (b : Bytes) : Prop := b.length < 2 ^ 32

/-- A well-formed string-keyed map for encoding: sorted, count and every key
and value within their 32-bit length prefixes. -/
def WFMapSB (m : List (Str × Bytes)) : Prop :=
  SortedKeys m ∧ m.length < 2 ^ 32 ∧
    ∀ p ∈ m, WFBytes p.1 ∧ WFBytes p.2

/-- A payload whose encoding round-trips: all lengths within their fixed-width
prefixes and the page map sorted. -/
def Payload.WFenc : Payload → Prop
  | .bufferlist d => WFBytes d
  | .pageset _ dl pgs =>
    dl < 2 ^ 64 ∧ SortedKeys pgs ∧ pgs.length < 2 ^ 32 ∧
      ∀ p ∈ pgs, p.1 < 2 ^ 64 ∧ WFBytes p.2

/-- A payload of the variant the collection's flag selects, built with the
collection's page size. -/
def Payload.variantOk (use_page_set : Bool) (page_size : Nat) : Payload → Prop
  | .bufferlist _ => use_page_set = false
  | .pageset ps _ _ => use_page_set = true ∧ ps = page_size

/-- A well-formed object for encoding: component bounds, and the whole
encoded body within its 32-bit envelope length (the envelope header itself is
6 bytes). -/
def Object.WFenc (o : Object) : Prop :=
  o.data.WFenc ∧ WFMapSB o.xattr ∧ WFBytes o.omap_header ∧ WFMapSB o.omap ∧
    o.encode.length < 6 + 2 ^ 32

/-- A well-formed collection for encoding: xattrs and `object_map` sorted and
bounded, every object well-formed and of the configured variant, and the whole
encoded body within its 32-bit envelope length. -/
def Collection.WFenc (c : Collection) : Prop :=
  WFMapSB c.xattr ∧ SortedKeys c.object_map ∧ c.object_map.length < 2 ^ 32 ∧
    (∀ p ∈ c.object_map, p.1 < 2 ^ 64 ∧ p.2.obj.WFenc ∧
      p.2.obj.data.variantOk c.use_page_set c.page_size) ∧
    c.encode.length < 6 + 2 ^ 32

/-- Pages suitable for byte addressing: a positive page size and every
allocated page of exactly that length. -/
def Payload.WFpages : Payload → Prop
  | .bufferlist _ => True
  | .pageset ps _ pgs => 0 < ps ∧ ∀ p ∈ pgs, p.2.length = ps

instance (b : Bytes) : Decidable (WFBytes b) := by
  unfold WFBytes; infer_instance

instance (m : List (Str × Bytes)) : Decidable (WFMapSB m) := by
  unfold WFMapSB; infer_instance

instance : (p : Payload) → Decidable p.WFenc
  | .bufferlist _ => by unfold Payload.WFenc; infer_instance
  | .pageset _ _ _ => by unfold Payload.WFenc; infer_instance

instance : (p : Payload) → Decidable p.WFpages
  | .bufferlist _ => by unfold Payload.WFpages; infer_instance
  | .pageset _ _ _ => by unfold Payload.WFpages; infer_instance

instance (ups : Bool) (psz : Nat) :
    (p : Payload) → Decidable (p.variantOk ups psz)
  | .bufferlist _ => by unfold Payload.variantOk; infer_instance
  | .pageset _ _ _ => by unfold Payload.variantOk; infer_instance

instance (o : Object) : Decidable o.WFenc := by
  unfold Object.WFenc; infer_instance

instance (c : Collection) : Decidable c.WFenc := by
  unfold Collection.WFenc; infer_instance

/-- The two indices hold the same key set. -/
def Collection.sameKeys (c : Collection) : Prop :=
  ∀ k, (lookup k c.object_hash).isSome ↔ (lookup k c.object_map).isSome

/-- The storage invariants of the two index containers: the unordered map
holds each key at most once, the ordered map is key-sorted. -/
def Collection.indexWF (c : Collection) : Prop :=
  (keys c.object_hash).Nodup ∧ SortedKeys c.object_map

/-- The dual-index invariant of claim C1. -/
def Collection.Inv (c : Collection) : Prop := c.indexWF ∧ c.sameKeys

/-- A fresh collection sharing `c`'s configuration, decoding into which models
loading a snapshot into a newly created collection. -/
def Collection.emptyLike (c : Collection) (addr0 : Nat) : Collection :=
  { c with object_hash := [], object_map := [], xattr := [], next_addr := addr0 }

/-- The observable state of an index entry: the key and the object's state,
the heap address disregarded. -/
def obsEntry (p : Ghobject × ObjectRef) : Ghobject × Object := (p.1, p.2.obj)

/-- Retag a run of index entries with consecutive fresh addresses starting at
`a`: the shape `Collection::decode`'s loop produces. -/
def reIds : Nat → List (Ghobject × ObjectRef) → List (Ghobject × ObjectRef)
  | _, [] => []
  | a, p :: t => (p.1, ⟨a, p.2.obj⟩) :: reIds (a + 1) t

/-- Fold the `object_hash` inserts of `Collection::decode`'s loop over the
entries of an encoded `object_map`, retagging addresses from `a`. -/
def hInsAll : List (Ghobject × ObjectRef) → Nat →
    List (Ghobject × ObjectRef) → List (Ghobject × ObjectRef)
  | [], _, oh => oh
  | p :: t, a, oh => hInsAll t (a + 1) (hIns p.1 ⟨a, p.2.obj⟩ oh)

/-! ## Concrete sample data -/

/-- A concrete collection (contiguous-buffer variant) with one object carrying
payload bytes, an xattr, an omap header and an omap entry, and a collection
xattr. -/
def sampleCollection : Collection :=
  ⟨false, 4096,
   [(2, ⟨0, ⟨.bufferlist [7, 8], [([97], [1])], [3], [([98], [2])]⟩⟩)],
   [(2, ⟨0, ⟨.bufferlist [7, 8], [([97], [1])], [3], [([98], [2])]⟩⟩)],
   [([99], [4])], 1⟩

/-- A concrete empty paged object with page size 4. -/
def samplePagedObject : Object := ⟨.pageset 4 0 [], [], [], []⟩

/-- Five bytes of 0xAB: written at offset 3 they cross a page boundary of
`samplePagedObject`. -/
def sampleSrc : Bytes := [171, 171, 171, 171, 171]

/-- The omap iterator of the spec scenario `omap_setkeys {"a":"1","c":"3"}`:
keys are byte strings, `"a" = [97]`, `"c" = [99]`. -/
def sampleOmapIter : OmapIteratorImpl := ⟨[([97], [49]), ([99], [51])], 0⟩

/-! ## Association-list map lemmas -/

section MapLemmas

variable {κ : Type} [LinearOrder κ] {α : Type}

theorem lookup_isSome_iff_mem (k : κ) (m : List (κ × α)) :
    (lookup k m).isSome ↔ k ∈ keys m := by
  induction m with
  | nil => simp [lookup, keys]
  | cons p t ih =>
    by_cases h : p.1 = k
    · subst h; simp [lookup, keys]
    · have h2 : ¬ (k = p.1) := fun hh => h hh.symm
      simp [lookup, keys, h, h2, ih]

theorem lookup_eq_none_iff (k : κ) (m : List (κ × α)) :
    lookup k m = none ↔ k ∉ keys m := by
  rw [← lookup_isSome_iff_mem]
  cases lookup k m <;> simp

theorem lookup_insAssign_self (k : κ) (v : α) (m : List (κ × α)) :
    lookup k (insAssign k v m) = some v := by
  induction m with
  | nil => simp [insAssign, lookup]
  | cons p t ih =>
    simp only [insAssign]
    by_cases h1 : k < p.1
    · rw [if_pos h1]; simp [lookup]
    · rw [if_neg h1]
      by_cases h2 : p.1 = k
      · rw [if_pos h2]; simp [lookup]
      · rw [if_neg h2]
        simp only [lookup, if_neg h2]
        exact ih

theorem lookup_insAssign_ne (k2 k : κ) (v : α) (m : List (κ × α))
    (hne : k2 ≠ k) : lookup k2 (insAssign k v m) = lookup k2 m := by
  have hne2 : ¬ (k = k2) := fun hh => hne hh.symm
  induction m with
  | nil => simp [insAssign, lookup, hne2]
  | cons p t ih =>
    simp only [insAssign]
    by_cases h1 : k < p.1
    · rw [if_pos h1]
      simp only [lookup, if_neg hne2]
    · rw [if_neg h1]
      by_cases h2 : p.1 = k
      · have h3 : ¬ (p.1 = k2) := by rw [h2]; exact fun hh => hne hh.symm
        rw [if_pos h2]
        simp only [lookup, if_neg hne2, if_neg h3]
      · rw [if_neg h2]
        simp only [lookup]
        by_cases h4 : p.1 = k2
        · rw [if_pos h4, if_pos h4]
        · rw [if_neg h4, if_neg h4]
          exact ih

theorem lookup_insNew_isSome (k2 k : κ) (v : α) (m : List (κ × α)) :
    (lookup k2 (insNew k v m)).isSome ↔ k2 = k ∨ (lookup k2 m).isSome := by
  induction m with
  | nil =>
    by_cases h : k = k2
    · subst h; simp [insNew, lookup]
    · have h2 : ¬ (k2 = k) := fun hh => h hh.symm
      simp [insNew, lookup, h, h2]
  | cons p t ih =>
    simp only [insNew]
    by_cases h1 : k < p.1
    · rw [if_pos h1]
      simp only [lookup]
      by_cases h : k = k2
      · subst h; simp
      · have h2 : ¬ (k2 = k) := fun hh => h hh.symm
        rw [if_neg h]
        simp [h2]
    · rw [if_neg h1]
      by_cases h2 : p.1 = k
      · rw [if_pos h2]
        simp only [lookup]
        by_cases h4 : p.1 = k2
        · rw [if_pos h4]
          simp only [Option.isSome_some, true_iff, iff_true]
          exact Or.inl (h4.symm.trans h2)
        · rw [if_neg h4]
          have h5 : ¬ (k2 = k) := fun hh => h4 (h2.trans hh.symm)
          simp [h5]
      · rw [if_neg h2]
        simp only [lookup]
        by_cases h4 : p.1 = k2
        · rw [if_pos h4, if_pos h4]; simp
        · rw [if_neg h4, if_neg h4]
          exact ih

theorem lookup_hIns_isSome (k2 k : κ) (v : α) (m : List (κ × α)) :
    (lookup k2 (hIns k v m)).isSome ↔ k2 = k ∨ (lookup k2 m).isSome := by
  by_cases h : (lookup k m).isSome
  · simp only [hIns, if_pos h]
    constructor
    · exact Or.inr
    · rintro (rfl | hh)
      · exact h
      · exact hh
  · rw [hIns, if_neg h]
    simp only [lookup]
    by_cases hk : k = k2
    · rw [if_pos hk]
      simp only [Option.isSome_some, true_iff, iff_true]
      exact Or.inl hk.symm
    · have hk2 : ¬ (k2 = k) := fun hh => hk hh.symm
      rw [if_neg hk]
      simp [hk2]

theorem eraseKey_sublist (k : κ) (m : List (κ × α)) :
    List.Sublist (eraseKey k m) m := by
  induction m with
  | nil => simp [eraseKey]
  | cons p t ih =>
    by_cases h : p.1 = k
    · rw [eraseKey, if_pos h]
      exact List.Sublist.cons p (List.Sublist.refl t)
    · rw [eraseKey, if_neg h]
      exact List.Sublist.cons₂ p ih

theorem lookup_eraseKey_isSome (k2 k : κ) (m : List (κ × α))
    (hnd : (keys m).Nodup) :
    (lookup k2 (eraseKey k m)).isSome ↔ k2 ≠ k ∧ (lookup k2 m).isSome := by
  induction m with
  | nil => simp [eraseKey, lookup]
  | cons p t ih =>
    rw [keys, List.map_cons, List.nodup_cons] at hnd
    obtain ⟨hp, hnd2⟩ := hnd
    by_cases h : p.1 = k
    · subst h
      rw [eraseKey, if_pos rfl]
      by_cases h2 : k2 = p.1
      · subst h2
        have hl : lookup p.1 t = none :=
          (lookup_eq_none_iff p.1 t).mpr (by simpa [keys] using hp)
        simp [hl, lookup]
      · have h3 : ¬ (p.1 = k2) := fun hh => h2 hh.symm
        simp only [lookup, if_neg h3]
        simp [h2]
    · rw [eraseKey, if_neg h]
      simp only [lookup]
      by_cases h4 : p.1 = k2
      · rw [if_pos h4, if_pos h4]
        have h5 : k2 ≠ k := fun hh => h ((h4.symm ▸ hh : p.1 = k))
        simp [h5]
      · rw [if_neg h4, if_neg h4]
        exact ih (by simpa [keys] using hnd2)

theorem mem_keys_insAssign (k2 k : κ) (v : α) (m : List (κ × α)) :
    k2 ∈ keys (insAssign k v m) ↔ k2 = k ∨ k2 ∈ keys m := by
  rw [← lookup_isSome_iff_mem, ← lookup_isSome_iff_mem]
  by_cases h : k2 = k
  · subst h; simp [lookup_insAssign_self]
  · rw [lookup_insAssign_ne _ _ _ _ h]; simp [h]

theorem mem_keys_insNew (k2 k : κ) (v : α) (m : List (κ × α)) :
    k2 ∈ keys (insNew k v m) ↔ k2 = k ∨ k2 ∈ keys m := by
  rw [← lookup_isSome_iff_mem, ← lookup_isSome_iff_mem]
  exact lookup_insNew_isSome k2 k v m

theorem sortedKeys_cons_iff (p : κ × α) (t : List (κ × α)) :
    SortedKeys (p :: t) ↔ (∀ b ∈ keys t, p.1 < b) ∧ SortedKeys t := by
  rw [SortedKeys, keys, List.map_cons, List.pairwise_cons]
  exact Iff.rfl

theorem SortedKeys.insAssign {m : List (κ × α)} (h : SortedKeys m)
    (k : κ) (v : α) : SortedKeys (insAssign k v m) := by
  induction m with
  | nil => simp [MemStore.insAssign, SortedKeys, keys]
  | cons p t ih =>
    obtain ⟨hp, ht⟩ := (sortedKeys_cons_iff p t).mp h
    rw [MemStore.insAssign]
    by_cases h1 : k < p.1
    · rw [if_pos h1, sortedKeys_cons_iff]
      refine ⟨?_, h⟩
      intro b hb
      rw [keys, List.map_cons, List.mem_cons] at hb
      rcases hb with rfl | hb2
      · exact h1
      · exact lt_trans h1 (hp b hb2)
    · rw [if_neg h1]
      by_cases h2 : p.1 = k
      · rw [if_pos h2, sortedKeys_cons_iff]
        exact ⟨fun b hb => h2 ▸ hp b hb, ht⟩
      · have h3 : p.1 < k := lt_of_le_of_ne (le_of_not_lt h1) h2
        rw [if_neg h2, sortedKeys_cons_iff]
        refine ⟨?_, ih ht⟩
        intro b hb
        rcases (mem_keys_insAssign b k v t).mp hb with rfl | hb2
        · exact h3
        · exact hp b hb2

theorem SortedKeys.insNew {m : List (κ × α)} (h : SortedKeys m)
    (k : κ) (v : α) : SortedKeys (insNew k v m) := by
  induction m with
  | nil => simp [MemStore.insNew, SortedKeys, keys]
  | cons p t ih =>
    obtain ⟨hp, ht⟩ := (sortedKeys_cons_iff p t).mp h
    rw [MemStore.insNew]
    by_cases h1 : k < p.1
    · rw [if_pos h1, sortedKeys_cons_iff]
      refine ⟨?_, h⟩
      intro b hb
      rw [keys, List.map_cons, List.mem_cons] at hb
      rcases hb with rfl | hb2
      · exact h1
      · exact lt_trans h1 (hp b hb2)
    · rw [if_neg h1]
      by_cases h2 : p.1 = k
      · rw [if_pos h2]
        exact h
      · have h3 : p.1 < k := lt_of_le_of_ne (le_of_not_lt h1) h2
        rw [if_neg h2, sortedKeys_cons_iff]
        refine ⟨?_, ih ht⟩
        intro b hb
        rcases (mem_keys_insNew b k v t).mp hb with rfl | hb2
        · exact h3
        · exact hp b hb2

theorem nodup_keys_hIns {m : List (κ × α)} (h : (keys m).Nodup)
    (k : κ) (v : α) : (keys (hIns k v m)).Nodup := by
  by_cases hs : (lookup k m).isSome
  · rw [hIns, if_pos hs]
    exact h
  · have hk : k ∉ keys m := fun hm => hs ((lookup_isSome_iff_mem k m).mpr hm)
    rw [hIns, if_neg hs, keys, List.map_cons, List.nodup_cons]
    exact ⟨by simpa [keys] using hk, by simpa [keys] using h⟩

theorem SortedKeys.nodupKeys {m : List (κ × α)} (h : SortedKeys m) :
    (keys m).Nodup :=
  List.Pairwise.imp (fun hab => ne_of_lt hab) h

theorem nodup_keys_eraseKey {m : List (κ × α)} (h : (keys m).Nodup) (k : κ) :
    (keys (eraseKey k m)).Nodup :=
  List.Nodup.sublist (List.Sublist.map Prod.fst (eraseKey_sublist k m)) h

theorem sortedKeys_eraseKey {m : List (κ × α)} (h : SortedKeys m) (k : κ) :
    SortedKeys (eraseKey k m) :=
  List.Pairwise.sublist (List.Sublist.map Prod.fst (eraseKey_sublist k m)) h

theorem insAssign_eq_append (k : κ) (v : α) (m : List (κ × α))
    (h : ∀ p ∈ m, p.1 < k) : insAssign k v m = m ++ [(k, v)] := by
  induction m with
  | nil => rfl
  | cons p t ih =>
    have h1 : p.1 < k := h p (List.mem_cons_self p t)
    rw [insAssign, if_neg (not_lt_of_gt h1), if_neg (ne_of_lt h1),
      ih (fun q hq => h q (List.mem_cons_of_mem p hq)), List.cons_append]

theorem insNew_eq_append (k : κ) (v : α) (m : List (κ × α))
    (h : ∀ p ∈ m, p.1 < k) : insNew k v m = m ++ [(k, v)] := by
  induction m with
  | nil => rfl
  | cons p t ih =>
    have h1 : p.1 < k := h p (List.mem_cons_self p t)
    rw [insNew, if_neg (not_lt_of_gt h1), if_neg (ne_of_lt h1),
      ih (fun q hq => h q (List.mem_cons_of_mem p hq)), List.cons_append]

end MapLemmas

/-! ## Codec round-trip lemmas -/

theorem encLE_length (w n : Nat) : (encLE w n).length = w := by
  induction w generalizing n with
  | zero => rfl
  | succ w ih => simp [encLE, ih]

theorem decLE_encLE (w n : Nat) (r : Bytes) (h : n < 256 ^ w) :
    decLE w (encLE w n ++ r) = .ok (n, r) := by
  induction w generalizing n r with
  | zero =>
    have : n = 0 := by simpa using h
    subst this
    rfl
  | succ w ih =>
    have hd : n / 256 < 256 ^ w := by
      rw [Nat.div_lt_iff_lt_mul (by omega : 0 < 256)]
      calc n < 256 ^ (w + 1) := h
        _ = 256 ^ w * 256 := by rw [pow_succ]
    rw [encLE, List.cons_append, decLE, ih (n / 256) r hd]
    dsimp only
    congr 2
    exact Nat.mod_add_div n 256

theorem readN_append (b r : Bytes) : readN b.length (b ++ r) = .ok (b, r) := by
  rw [readN, if_pos (by simp)]
  simp

theorem decBytes_encBytes (b r : Bytes) (h : WFBytes b) :
    decBytes (encBytes b ++ r) = .ok (b, r) := by
  have h4 : b.length < 256 ^ 4 := by
    have : (256 : Nat) ^ 4 = 2 ^ 32 := by norm_num
    rw [this]; exact h
  rw [encBytes, decBytes, List.append_assoc, decLE_encLE 4 b.length (b ++ r) h4]
  dsimp only
  exact readN_append b r

theorem decBool_encBool (b : Bool) (r : Bytes) :
    decBool (encBool b ++ r) = .ok (b, r) := by
  cases b <;> rfl

theorem sortedKeys_append_head {κ : Type} [LinearOrder κ] {α : Type}
    {acc : List (κ × α)} {p : κ × α} {t : List (κ × α)}
    (hs : SortedKeys (acc ++ p :: t)) : ∀ q ∈ acc, q.1 < p.1 := by
  intro q hq
  rw [SortedKeys, keys, List.map_append, List.map_cons,
    List.pairwise_append] at hs
  exact hs.2.2 q.1 (List.mem_map_of_mem Prod.fst hq) p.1 (List.mem_cons_self _ _)

theorem decEntries_enc {κ : Type} [LinearOrder κ] {α : Type}
    (decK : Bytes → Dec κ) (encK : κ → Bytes)
    (decV : Bytes → Dec α) (encV : α → Bytes) (l : List (κ × α)) :
    ∀ (acc : List (κ × α)) (r : Bytes),
      (∀ p ∈ l, ∀ r2, decK (encK p.1 ++ r2) = .ok (p.1, r2)) →
      (∀ p ∈ l, ∀ r2, decV (encV p.2 ++ r2) = .ok (p.2, r2)) →
      SortedKeys (acc ++ l) →
      decEntries decK decV l.length acc (encEntries encK encV l ++ r) =
        .ok (acc ++ l, r) := by
  induction l with
  | nil =>
    intro acc r _ _ _
    simp [decEntries, encEntries]
  | cons p t ih =>
    intro acc r hK hV hs
    have hacc : insAssign p.1 p.2 acc = acc ++ [p] := by
      rw [insAssign_eq_append p.1 p.2 acc (sortedKeys_append_head hs)]
    rw [encEntries, List.length_cons, List.append_assoc, List.append_assoc,
      decEntries, hK p (List.mem_cons_self p t) _]
    dsimp only
    rw [hV p (List.mem_cons_self p t) _]
    dsimp only
    rw [hacc]
    have hs2 : SortedKeys ((acc ++ [p]) ++ t) := by
      rw [List.append_assoc, List.singleton_append]
      exact hs
    have := ih (acc ++ [p]) r
      (fun q hq r2 => hK q (List.mem_cons_of_mem p hq) r2)
      (fun q hq r2 => hV q (List.mem_cons_of_mem p hq) r2) hs2
    rw [this, List.append_assoc, List.singleton_append]

theorem decMap_enc {κ : Type} [LinearOrder κ] {α : Type}
    (decK : Bytes → Dec κ) (encK : κ → Bytes)
    (decV : Bytes → Dec α) (encV : α → Bytes) (m : List (κ × α)) (r : Bytes)
    (hK : ∀ p ∈ m, ∀ r2, decK (encK p.1 ++ r2) = .ok (p.1, r2))
    (hV : ∀ p ∈ m, ∀ r2, decV (encV p.2 ++ r2) = .ok (p.2, r2))
    (hs : SortedKeys m) (hlen : m.length < 2 ^ 32) :
    decMap decK decV (encMap encK encV m ++ r) = .ok (m, r) := by
  have h4 : m.length < 256 ^ 4 := by
    have : (256 : Nat) ^ 4 = 2 ^ 32 := by norm_num
    rw [this]; exact hlen
  rw [encMap, decMap, List.append_assoc, decLE_encLE 4 m.length _ h4]
  dsimp only
  have := decEntries_enc decK encK decV encV m [] r hK hV (by simpa using hs)
  simpa using this

theorem decMapSB_enc (m : List (Str × Bytes)) (r : Bytes) (h : WFMapSB m) :
    decMap decBytes decBytes (encMap encBytes encBytes m ++ r) = .ok (m, r) := by
  obtain ⟨hs, hlen, hent⟩ := h
  exact decMap_enc decBytes encBytes decBytes encBytes m r
    (fun p hp r2 => decBytes_encBytes p.1 r2 (hent p hp).1)
    (fun p hp r2 => decBytes_encBytes p.2 r2 (hent p hp).2) hs hlen

theorem decode_base_enc (o : Object) (r : Bytes) (hx : WFMapSB o.xattr)
    (hh : WFBytes o.omap_header) (ho : WFMapSB o.omap) :
    Object.decode_base (o.encode_base ++ r) =
      .ok ((o.xattr, o.omap_header, o.omap), r) := by
  rw [Object.encode_base, Object.decode_base, List.append_assoc,
    List.append_assoc, decMapSB_enc o.xattr _ hx]
  dsimp only
  rw [decBytes_encBytes o.omap_header _ hh]
  dsimp only
  rw [decMapSB_enc o.omap r ho]

theorem decPageSet_enc (pgs : List (Nat × Bytes)) (r : Bytes)
    (hs : SortedKeys pgs) (hlen : pgs.length < 2 ^ 32)
    (hent : ∀ p ∈ pgs, p.1 < 2 ^ 64 ∧ WFBytes p.2) :
    decPageSet (encPageSet pgs ++ r) = .ok (pgs, r) := by
  rw [encPageSet, decPageSet]
  exact decMap_enc _ (encLE 8) decBytes encBytes pgs r
    (fun p hp r2 => decLE_encLE 8 p.1 r2
      (by
        have : (256 : Nat) ^ 8 = 2 ^ 64 := by norm_num
        rw [this]; exact (hent p hp).1))
    (fun p hp r2 => decBytes_encBytes p.2 r2 (hent p hp).2) hs hlen

theorem decEnv_encEnv {α : Type} (supported v compat : Nat)
    (body : Bytes → Dec α) (payload rest : Bytes) (a : α)
    (hc : compat % 256 ≤ supported) (hlen : payload.length < 2 ^ 32)
    (hbody : body (payload ++ rest) = .ok (a, rest)) :
    decEnv supported body (encEnv v compat payload ++ rest) = .ok (a, rest) := by
  have h4 : payload.length < 256 ^ 4 := by
    have : (256 : Nat) ^ 4 = 2 ^ 32 := by norm_num
    rw [this]; exact hlen
  rw [encEnv, encLE, encLE, encLE, encLE]
  simp only [List.cons_append, List.nil_append]
  rw [decEnv]
  rw [if_neg (by simpa using not_lt_of_ge hc)]
  rw [List.append_assoc, decLE_encLE 4 payload.length _ h4]
  dsimp only
  rw [if_neg (by simp)]
  rw [hbody]
  dsimp only
  rw [if_neg (by simp), List.drop_left]

theorem encEnv_length (v compat : Nat) (p : Bytes) :
    (encEnv v compat p).length = 6 + p.length := by
  simp only [encEnv, List.length_append, encLE_length]

theorem decEnv_versionTooNew {α : Type} (sup : Nat) (body : Bytes → Dec α)
    (sv cv : Byte) (s : Bytes) (h : sup < cv.val) :
    decEnv sup body (sv :: cv :: s) = .error .versionTooNew := by
  rw [decEnv, if_pos h]

theorem decEnv_truncated {α : Type} (sup : Nat) (body : Bytes → Dec α)
    (sv cv : Byte) (len : Nat) (s : Bytes) (hc : ¬ sup < cv.val)
    (hlen : len < 2 ^ 32) (hs : s.length < len) :
    decEnv sup body (sv :: cv :: (encLE 4 len ++ s)) = .error .truncated := by
  have h4 : len < 256 ^ 4 := by
    have : (256 : Nat) ^ 4 = 2 ^ 32 := by norm_num
    rw [this]; exact hlen
  rw [decEnv, if_neg hc, decLE_encLE 4 len s h4]
  dsimp only
  rw [if_pos hs]

/-! ## Object and collection round trips -/

theorem object_decode_encode (o : Object) (ups : Bool) (psz : Nat) (r : Bytes)
    (hwf : o.WFenc) (hv : o.data.variantOk ups psz) :
    Object.decode ups psz (o.encode ++ r) = .ok (o, r) := by
  obtain ⟨data, xa, hdr, om⟩ := o
  obtain ⟨hd, hx, hh, ho, hlen⟩ := hwf
  cases data with
  | bufferlist d =>
    have hups : ups = false := hv
    subst hups
    rw [Object.decode]
    rw [Object.encode] at hlen ⊢
    dsimp only at hlen ⊢
    refine decEnv_encEnv 1 1 1 _ _ r _ (by norm_num) ?_ ?_
    · rw [encEnv_length] at hlen
      omega
    · dsimp only
      rw [if_neg (by decide : ¬ (false = true))]
      rw [List.append_assoc, decBytes_encBytes d _ hd]
      dsimp only
      rw [decode_base_enc ⟨.bufferlist d, xa, hdr, om⟩ r hx hh ho]
  | pageset ps dl pgs =>
    obtain ⟨hups, hps⟩ := hv
    subst hups
    subst hps
    obtain ⟨hdl, hpgs, hpgl, hpge⟩ := hd
    rw [Object.decode]
    rw [Object.encode] at hlen ⊢
    dsimp only at hlen ⊢
    refine decEnv_encEnv 1 1 1 _ _ r _ (by norm_num) ?_ ?_
    · rw [encEnv_length] at hlen
      omega
    · dsimp only
      rw [if_pos (rfl : (true : Bool) = true)]
      rw [List.append_assoc, List.append_assoc,
        decLE_encLE 8 dl _ (by
          have : (256 : Nat) ^ 8 = 2 ^ 64 := by norm_num
          rw [this]; exact hdl)]
      dsimp only
      rw [decPageSet_enc pgs _ hpgs hpgl hpge]
      dsimp only
      rw [decode_base_enc ⟨.pageset ps dl pgs, xa, hdr, om⟩ r hx hh ho]

theorem decObjLoop_enc (ups : Bool) (psz : Nat)
    (l : List (Ghobject × ObjectRef)) :
    ∀ (om oh : List (Ghobject × ObjectRef)) (na : Nat) (r : Bytes),
      (∀ p ∈ l, p.1 < 2 ^ 64 ∧ p.2.obj.WFenc ∧
        p.2.obj.data.variantOk ups psz) →
      SortedKeys (om ++ l) →
      decObjLoop ups psz l.length om oh na (encObjEntries l ++ r) =
        .ok ((om ++ reIds na l, hInsAll l na oh, na + l.length), r) := by
  induction l with
  | nil =>
    intro om oh na r _ _
    simp [decObjLoop, encObjEntries, reIds, hInsAll]
  | cons p t ih =>
    intro om oh na r hent hs
    obtain ⟨hk, hwf, hv⟩ := hent p (List.mem_cons_self p t)
    rw [encObjEntries, List.length_cons, List.append_assoc, List.append_assoc,
      decObjLoop, decLE_encLE 8 p.1 _ (by
        have : (256 : Nat) ^ 8 = 2 ^ 64 := by norm_num
        rw [this]; exact hk)]
    dsimp only
    rw [object_decode_encode p.2.obj ups psz _ hwf hv]
    dsimp only
    have hins : insNew p.1 (⟨na, p.2.obj⟩ : ObjectRef) om = om ++ [(p.1, ⟨na, p.2.obj⟩)] :=
      insNew_eq_append p.1 _ om (sortedKeys_append_head hs)
    rw [hins]
    have hs2 : SortedKeys ((om ++ [(p.1, (⟨na, p.2.obj⟩ : ObjectRef))]) ++ t) := by
      have hkeq : keys ((om ++ [(p.1, (⟨na, p.2.obj⟩ : ObjectRef))]) ++ t) =
          keys (om ++ p :: t) := by
        simp [keys]
      rw [SortedKeys, hkeq]
      exact hs
    rw [ih (om ++ [(p.1, (⟨na, p.2.obj⟩ : ObjectRef))])
      (hIns p.1 (⟨na, p.2.obj⟩ : ObjectRef) oh) (na + 1) r
      (fun q hq => hent q (List.mem_cons_of_mem p hq)) hs2]
    have hna : na + 1 + t.length = na + (t.length + 1) := by omega
    rw [reIds, hInsAll, List.append_assoc, List.singleton_append, hna]

theorem collection_decode_encode (c : Collection) (a0 : Nat) (r : Bytes)
    (h : c.WFenc) :
    (c.emptyLike a0).decode (c.encode ++ r) =
      .ok (⟨c.use_page_set, c.page_size, hInsAll c.object_map a0 [],
            reIds a0 c.object_map, c.xattr, a0 + c.object_map.length⟩, r) := by
  obtain ⟨hx, hs, hn, hent, hlen⟩ := h
  rw [Collection.decode, Collection.encode]
  rw [Collection.encode, encEnv_length] at hlen
  refine decEnv_encEnv 1 1 1 _ _ r _ (by norm_num) (by omega) ?_
  dsimp only [Collection.emptyLike]
  rw [List.append_assoc, List.append_assoc, List.append_assoc,
    decMapSB_enc c.xattr _ hx]
  dsimp only
  rw [decBool_encBool c.use_page_set _]
  dsimp only
  rw [decLE_encLE 4 c.object_map.length _ (by
    have : (256 : Nat) ^ 4 = 2 ^ 32 := by norm_num
    rw [this]; exact hn)]
  dsimp only
  rw [decObjLoop_enc c.use_page_set c.page_size c.object_map [] [] a0 r
    hent (by simpa using hs)]
  dsimp only
  rw [List.nil_append]

/-! ## Dual-index invariant preservation -/

theorem Inv_init (ups : Bool) (psz : Nat) : (Collection.init ups psz).Inv := by
  refine ⟨⟨?_, ?_⟩, ?_⟩
  · simp [Collection.init, keys]
  · simp [Collection.init, SortedKeys, keys]
  · intro k
    simp [Collection.init, lookup]

theorem Inv_get_or_create {c : Collection} (h : c.Inv) (oid : Ghobject) :
    ((c.get_or_create_object oid).2).Inv := by
  obtain ⟨⟨hnd, hsort⟩, hsk⟩ := h
  rw [Collection.get_or_create_object]
  cases hl : lookup oid c.object_hash with
  | some o => exact ⟨⟨hnd, hsort⟩, hsk⟩
  | none =>
    dsimp only [Collection.create_object]
    refine ⟨⟨?_, ?_⟩, ?_⟩
    · rw [keys, List.map_cons, List.nodup_cons]
      exact ⟨by simpa [keys] using (lookup_eq_none_iff oid c.object_hash).mp hl,
        by simpa [keys] using hnd⟩
    · exact hsort.insAssign oid _
    · intro k
      by_cases hk : k = oid
      · subst hk
        simp [lookup, lookup_insAssign_self]
      · have hk2 : ¬ (oid = k) := fun hh => hk hh.symm
        rw [lookup, if_neg hk2, lookup_insAssign_ne k oid _ _ hk]
        exact hsk k

theorem Inv_remove {c : Collection} (h : c.Inv) (oid : Ghobject) :
    (c.remove_object oid).Inv := by
  obtain ⟨⟨hnd, hsort⟩, hsk⟩ := h
  refine ⟨⟨nodup_keys_eraseKey hnd oid, sortedKeys_eraseKey hsort oid⟩, ?_⟩
  intro k
  rw [Collection.remove_object]
  dsimp only
  rw [lookup_eraseKey_isSome k oid _ hnd,
    lookup_eraseKey_isSome k oid _ hsort.nodupKeys]
  exact and_congr_right fun _ => hsk k

theorem Inv_move_rename {src dst : Collection} (hs : src.Inv) (hd : dst.Inv)
    (oldoid newoid : Ghobject) :
    ((collection_move_rename src dst oldoid newoid).1).Inv ∧
      ((collection_move_rename src dst oldoid newoid).2).Inv := by
  rw [collection_move_rename]
  cases hl : lookup oldoid src.object_hash with
  | none => exact ⟨hs, hd⟩
  | some o =>
    dsimp only
    by_cases hex : (lookup newoid dst.object_hash).isSome
    · rw [if_pos hex]
      exact ⟨hs, hd⟩
    · rw [if_neg hex]
      refine ⟨Inv_remove hs oldoid, ?_⟩
      obtain ⟨⟨hnd, hsort⟩, hsk⟩ := hd
      refine ⟨⟨nodup_keys_hIns hnd newoid o, hsort.insNew newoid o⟩, ?_⟩
      intro k
      exact (lookup_hIns_isSome k newoid o dst.object_hash).trans
        ((or_congr_right (hsk k)).trans
          (lookup_insNew_isSome k newoid o dst.object_map).symm)

theorem decObjLoop_inv (ups : Bool) (psz : Nat) :
    ∀ (n : Nat) (om oh : List (Ghobject × ObjectRef)) (na : Nat) (s : Bytes)
      (om2 oh2 : List (Ghobject × ObjectRef)) (na2 : Nat) (r : Bytes),
      (keys oh).Nodup → SortedKeys om →
      (∀ k, (lookup k oh).isSome ↔ (lookup k om).isSome) →
      decObjLoop ups psz n om oh na s = .ok ((om2, oh2, na2), r) →
      (keys oh2).Nodup ∧ SortedKeys om2 ∧
        (∀ k, (lookup k oh2).isSome ↔ (lookup k om2).isSome) := by
  intro n
  induction n with
  | zero =>
    intro om oh na s om2 oh2 na2 r h1 h2 h3 hdec
    rw [decObjLoop] at hdec
    simp only [Except.ok.injEq, Prod.mk.injEq] at hdec
    obtain ⟨⟨e1, e2, e3⟩, e4⟩ := hdec
    subst e1; subst e2
    exact ⟨h1, h2, h3⟩
  | succ n ih =>
    intro om oh na s om2 oh2 na2 r h1 h2 h3 hdec
    rw [decObjLoop] at hdec
    cases hk : decLE 8 s with
    | error e => rw [hk] at hdec; simp at hdec
    | ok kv =>
      obtain ⟨k, s1⟩ := kv
      rw [hk] at hdec
      dsimp only at hdec
      cases ho : Object.decode ups psz s1 with
      | error e => rw [ho] at hdec; simp at hdec
      | ok obs1 =>
        obtain ⟨ob, s2⟩ := obs1
        rw [ho] at hdec
        dsimp only at hdec
        refine ih _ _ _ _ _ _ _ _ (nodup_keys_hIns h1 k ⟨na, ob⟩)
          (h2.insNew k ⟨na, ob⟩) ?_ hdec
        intro k2
        exact (lookup_hIns_isSome k2 k _ oh).trans
          ((or_congr_right (h3 k2)).trans
            (lookup_insNew_isSome k2 k _ om).symm)

theorem Collection.decode_Inv {c c2 : Collection} {s r : Bytes}
    (h : c.Inv) (hdec : c.decode s = .ok (c2, r)) : c2.Inv := by
  obtain ⟨⟨hnd, hsort⟩, hsk⟩ := h
  rw [Collection.decode] at hdec
  unfold decEnv at hdec
  split at hdec
  · -- the stream has the two version bytes
    split at hdec
    · exact absurd hdec (by simp)
    · split at hdec
      · exact absurd hdec (by simp)
      · split at hdec
        · exact absurd hdec (by simp)
        · split at hdec
          · exact absurd hdec (by simp)
          · rename_i a r2 hbody
            split at hdec
            · exact absurd hdec (by simp)
            · simp only [Except.ok.injEq, Prod.mk.injEq] at hdec
              obtain ⟨e1, e2⟩ := hdec
              subst e1
              dsimp only at hbody
              split at hbody
              · exact absurd hbody (by simp)
              · split at hbody
                · exact absurd hbody (by simp)
                · split at hbody
                  · exact absurd hbody (by simp)
                  · split at hbody
                    · exact absurd hbody (by simp)
                    · rename_i om oh na t4 hloop
                      simp only [Except.ok.injEq, Prod.mk.injEq] at hbody
                      obtain ⟨e3, _⟩ := hbody
                      have hinv := decObjLoop_inv _ _ _ _ _ _ _ _ _ _ _
                        hnd hsort hsk hloop
                      rw [← e3]
                      exact ⟨⟨hinv.1, hinv.2.1⟩, hinv.2.2⟩
  · exact absurd hdec (by simp)

/-! ## Byte-range write/read lemmas -/

theorem lookup_mem {κ : Type} [LinearOrder κ] {α : Type} {k : κ} {v : α} :
    ∀ {m : List (κ × α)}, lookup k m = some v → (k, v) ∈ m := by
  intro m
  induction m with
  | nil => intro h; exact absurd h (by simp [lookup])
  | cons p t ih =>
    intro h
    rw [lookup] at h
    by_cases hp : p.1 = k
    · rw [if_pos hp] at h
      have hv : v = p.2 := by simpa using h.symm
      have : (k, v) = p := by
        rw [← hp, hv]
      rw [this]
      exact List.mem_cons_self p t
    · rw [if_neg hp] at h
      exact List.mem_cons_of_mem p (ih h)

theorem mem_insAssign {κ : Type} [LinearOrder κ] {α : Type} {q : κ × α}
    (k : κ) (v : α) : ∀ {m : List (κ × α)},
    q ∈ insAssign k v m → q = (k, v) ∨ q ∈ m := by
  intro m
  induction m with
  | nil => intro h; simp [insAssign] at h; exact Or.inl h
  | cons p t ih =>
    intro h
    rw [insAssign] at h
    by_cases h1 : k < p.1
    · rw [if_pos h1] at h
      rcases List.mem_cons.mp h with rfl | h2
      · exact Or.inl rfl
      · exact Or.inr h2
    · rw [if_neg h1] at h
      by_cases h2 : p.1 = k
      · rw [if_pos h2] at h
        rcases List.mem_cons.mp h with rfl | h3
        · exact Or.inl rfl
        · exact Or.inr (List.mem_cons_of_mem p h3)
      · rw [if_neg h2] at h
        rcases List.mem_cons.mp h with rfl | h3
        · exact Or.inr (List.mem_cons_self _ _)
        · rcases ih h3 with h4 | h4
          · exact Or.inl h4
          · exact Or.inr (List.mem_cons_of_mem p h4)

theorem map_range_getD (l : Bytes) :
    (List.range l.length).map (fun i => l.getD i 0) = l := by
  apply List.ext_getElem
  · simp
  · intro i h1 h2
    simp [List.getD_eq_getElem?_getD, List.getElem?_eq_getElem h2]

theorem bufferlistRead_write (d : Bytes) (o : Nat) (b : Bytes) :
    bufferlistRead (bufferlistWrite d o b) o b.length = b := by
  rw [bufferlistWrite, bufferlistRead]
  have hpre : (d.take o ++ List.replicate (o - d.length) (0 : Byte)).length = o := by
    simp only [List.length_append, List.length_take, List.length_replicate]
    omega
  apply List.ext_getElem
  · simp
  · intro i h1 h2
    have hi : i < b.length := by simpa using h1
    rw [List.getElem_map, List.getElem_range]
    rw [List.append_assoc (d.take o ++ List.replicate (o - d.length) (0 : Byte))
      b (d.drop (o + b.length))]
    rw [List.getD_append_right _ _ _ _ (by omega)]
    rw [hpre]
    have hoi : o + i - o = i := by omega
    rw [hoi]
    rw [List.getD_append _ _ _ _ hi]
    exact List.getD_eq_getElem _ _ hi

theorem length_pageGet (ps : Nat) (pgs : List (Nat × Bytes)) (i : Nat)
    (hwf : ∀ p ∈ pgs, p.2.length = ps) : (pageGet ps pgs i).length = ps := by
  rw [pageGet]
  cases hl : lookup i pgs with
  | none => simp [zeroPage]
  | some pg =>
    simp only [Option.getD_some]
    exact hwf (i, pg) (lookup_mem hl)

theorem wf_pagedSetByte (ps : Nat) (pgs : List (Nat × Bytes)) (p : Nat)
    (v : Byte) (h : ∀ q ∈ pgs, q.2.length = ps) :
    ∀ q ∈ pagedSetByte ps pgs p v, q.2.length = ps := by
  intro q hq
  rw [pagedSetByte] at hq
  rcases mem_insAssign _ _ hq with rfl | hq2
  · simp only [List.length_set]
    exact length_pageGet ps pgs _ h
  · exact h q hq2

theorem pagedByteAt_setByte_self (ps : Nat) (pgs : List (Nat × Bytes))
    (p : Nat) (v : Byte) (hps : 0 < ps) (hwf : ∀ q ∈ pgs, q.2.length = ps) :
    pagedByteAt ps (pagedSetByte ps pgs p v) p = v := by
  rw [pagedByteAt, pagedSetByte, pageGet, lookup_insAssign_self]
  simp only [Option.getD_some]
  have hlt : p % ps < (pageGet ps pgs (p / ps)).length := by
    rw [length_pageGet ps pgs _ hwf]
    exact Nat.mod_lt _ hps
  rw [List.getD_eq_getElem _ _ (by simpa using hlt)]
  exact List.getElem_set_self _

theorem pagedByteAt_setByte_ne (ps : Nat) (pgs : List (Nat × Bytes))
    (p q : Nat) (v : Byte) (hps : 0 < ps) (hne : q ≠ p) :
    pagedByteAt ps (pagedSetByte ps pgs p v) q = pagedByteAt ps pgs q := by
  by_cases hpq : q / ps = p / ps
  · have hoff : q % ps ≠ p % ps := by
      intro he
      apply hne
      have h1 := Nat.div_add_mod q ps
      have h2 := Nat.div_add_mod p ps
      rw [hpq] at h1
      omega
    rw [pagedByteAt, pagedByteAt, pagedSetByte, hpq, pageGet,
      lookup_insAssign_self]
    simp only [Option.getD_some]
    rw [List.getD_eq_getElem?_getD, List.getD_eq_getElem?_getD,
      List.getElem?_set_ne (fun hh => hoff hh.symm)]
  · rw [pagedByteAt, pagedByteAt, pagedSetByte, pageGet,
      lookup_insAssign_ne _ _ _ _ hpq, ← pageGet]

theorem pagedWriteBytes_spec (ps : Nat) (hps : 0 < ps) :
    ∀ (b : Bytes) (pgs : List (Nat × Bytes)) (o : Nat),
      (∀ q ∈ pgs, q.2.length = ps) →
      (∀ q ∈ pagedWriteBytes ps pgs o b, q.2.length = ps) ∧
      (∀ i (h : i < b.length),
        pagedByteAt ps (pagedWriteBytes ps pgs o b) (o + i) = b.get ⟨i, h⟩) ∧
      (∀ pos, pos < o →
        pagedByteAt ps (pagedWriteBytes ps pgs o b) pos = pagedByteAt ps pgs pos) := by
  intro b
  induction b with
  | nil =>
    intro pgs o hwf
    exact ⟨by simpa [pagedWriteBytes] using hwf, by simp, by simp [pagedWriteBytes]⟩
  | cons v t ih =>
    intro pgs o hwf
    rw [pagedWriteBytes]
    have hwf2 := wf_pagedSetByte ps pgs o v hwf
    obtain ⟨ihw, ihget, ihframe⟩ := ih (pagedSetByte ps pgs o v) (o + 1) hwf2
    refine ⟨ihw, ?_, ?_⟩
    · intro i hi
      cases i with
      | zero =>
        rw [ihframe (o + 0) (by omega)]
        simpa using pagedByteAt_setByte_self ps pgs o v hps hwf
      | succ j =>
        have hj : j < t.length := by simpa using hi
        have hadd : o + (j + 1) = (o + 1) + j := by omega
        rw [hadd, ihget j hj]
        rfl
    · intro pos hpos
      rw [ihframe pos (by omega)]
      exact pagedByteAt_setByte_ne ps pgs o pos v hps (by omega)

theorem keys_reIds (a : Nat) (l : List (Ghobject × ObjectRef)) :
    keys (reIds a l) = keys l := by
  induction l generalizing a with
  | nil => rfl
  | cons p t ih => simp [reIds, keys] at ih ⊢; exact ih (a + 1)

theorem obs_reIds (a : Nat) (l : List (Ghobject × ObjectRef)) :
    (reIds a l).map obsEntry = l.map obsEntry := by
  induction l generalizing a with
  | nil => rfl
  | cons p t ih => simp [reIds, obsEntry] at ih ⊢; exact ih (a + 1)

theorem lookup_hInsAll_isSome (k : Ghobject) (l : List (Ghobject × ObjectRef)) :
    ∀ (a : Nat) (oh : List (Ghobject × ObjectRef)),
      (lookup k (hInsAll l a oh)).isSome ↔ k ∈ keys l ∨ (lookup k oh).isSome := by
  induction l with
  | nil =>
    intro a oh
    simp [hInsAll, keys]
  | cons p t ih =>
    intro a oh
    rw [hInsAll]
    rw [ih (a + 1) (hIns p.1 ⟨a, p.2.obj⟩ oh)]
    rw [lookup_hIns_isSome k p.1 _ oh]
    simp only [keys, List.map_cons, List.mem_cons]
    constructor
    · rintro (h | rfl | h)
      · exact Or.inl (Or.inr (by simpa [keys] using h))
      · exact Or.inl (Or.inl rfl)
      · exact Or.inr h
    · rintro (⟨rfl | h⟩ | h)
      · exact Or.inr (Or.inl rfl)
      · exact Or.inl (by simpa [keys] using h)
      · exact Or.inr (Or.inr h)

theorem foldl_add_sum {β : Type} (f : β → Nat) (l : List β) :
    ∀ a : Nat, l.foldl (fun r p => r + f p) a = a + (l.map f).sum := by
  induction l with
  | nil => intro a; simp
  | cons p t ih =>
    intro a
    rw [List.foldl_cons, ih (a + f p), List.map_cons, List.sum_cons]
    omega

/-! ## Iterator cursor lemmas -/

theorem lbIdx_le_length {κ : Type} [LinearOrder κ] {α : Type} (k : κ)
    (l : List (κ × α)) : lbIdx k l ≤ l.length := by
  induction l with
  | nil => simp [lbIdx]
  | cons p t ih =>
    rw [lbIdx]
    by_cases h : p.1 < k
    · rw [if_pos h]; simpa using ih
    · rw [if_neg h]; simp

theorem ubIdx_le_length {κ : Type} [LinearOrder κ] {α : Type} (k : κ)
    (l : List (κ × α)) : ubIdx k l ≤ l.length := by
  induction l with
  | nil => simp [ubIdx]
  | cons p t ih =>
    rw [ubIdx]
    by_cases h : p.1 ≤ k
    · rw [if_pos h]; simpa using ih
    · rw [if_neg h]; simp

theorem lbIdx_before {κ : Type} [LinearOrder κ] {α : Type} (k : κ) :
    ∀ (l : List (κ × α)) (j : Nat) (p : κ × α),
      j < lbIdx k l → l.get? j = some p → p.1 < k := by
  intro l
  induction l with
  | nil => intro j p hj _; simp [lbIdx] at hj
  | cons q t ih =>
    intro j p hj hp
    rw [lbIdx] at hj
    by_cases h : q.1 < k
    · rw [if_pos h] at hj
      cases j with
      | zero =>
        have h2 : q = p := by simpa using hp
        exact h2 ▸ h
      | succ j2 => exact ih j2 p (by omega) (by simpa using hp)
    · rw [if_neg h] at hj; omega

theorem lbIdx_at {κ : Type} [LinearOrder κ] {α : Type} (k : κ) :
    ∀ (l : List (κ × α)) (p : κ × α),
      l.get? (lbIdx k l) = some p → k ≤ p.1 := by
  intro l
  induction l with
  | nil => intro p hp; simp at hp
  | cons q t ih =>
    intro p hp
    rw [lbIdx] at hp
    by_cases h : q.1 < k
    · rw [if_pos h] at hp
      exact ih p (by simpa using hp)
    · rw [if_neg h] at hp
      have h2 : q = p := by simpa using hp
      exact h2 ▸ le_of_not_lt h

theorem lbIdx_eq_length_iff {κ : Type} [LinearOrder κ] {α : Type} (k : κ)
    (l : List (κ × α)) : lbIdx k l = l.length ↔ ∀ p ∈ l, p.1 < k := by
  induction l with
  | nil => simp [lbIdx]
  | cons q t ih =>
    rw [lbIdx]
    by_cases h : q.1 < k
    · rw [if_pos h]
      simp only [List.length_cons, Nat.add_right_cancel_iff]
      rw [ih]
      simp [h]
    · rw [if_neg h]
      constructor
      · intro h0
        exact absurd h0.symm (by simp)
      · intro hall
        exact absurd (hall q (List.mem_cons_self q t)) h

theorem ubIdx_before {κ : Type} [LinearOrder κ] {α : Type} (k : κ) :
    ∀ (l : List (κ × α)) (j : Nat) (p : κ × α),
      j < ubIdx k l → l.get? j = some p → p.1 ≤ k := by
  intro l
  induction l with
  | nil => intro j p hj _; simp [ubIdx] at hj
  | cons q t ih =>
    intro j p hj hp
    rw [ubIdx] at hj
    by_cases h : q.1 ≤ k
    · rw [if_pos h] at hj
      cases j with
      | zero =>
        have h2 : q = p := by simpa using hp
        exact h2 ▸ h
      | succ j2 => exact ih j2 p (by omega) (by simpa using hp)
    · rw [if_neg h] at hj; omega

theorem ubIdx_at {κ : Type} [LinearOrder κ] {α : Type} (k : κ) :
    ∀ (l : List (κ × α)) (p : κ × α),
      l.get? (ubIdx k l) = some p → k < p.1 := by
  intro l
  induction l with
  | nil => intro p hp; simp at hp
  | cons q t ih =>
    intro p hp
    rw [ubIdx] at hp
    by_cases h : q.1 ≤ k
    · rw [if_pos h] at hp
      exact ih p (by simpa using hp)
    · rw [if_neg h] at hp
      have h2 : q = p := by simpa using hp
      exact h2 ▸ lt_of_not_le h

theorem ubIdx_eq_length_iff {κ : Type} [LinearOrder κ] {α : Type} (k : κ)
    (l : List (κ × α)) : ubIdx k l = l.length ↔ ∀ p ∈ l, p.1 ≤ k := by
  induction l with
  | nil => simp [ubIdx]
  | cons q t ih =>
    rw [ubIdx]
    by_cases h : q.1 ≤ k
    · rw [if_pos h]
      simp only [List.length_cons, Nat.add_right_cancel_iff]
      rw [ih]
      simp [h]
    · rw [if_neg h]
      constructor
      · intro h0
        exact absurd h0.symm (by simp)
      · intro hall
        exact absurd (hall q (List.mem_cons_self q t)) h

theorem get_or_create_eq_of_some {c : Collection} {oid : Ghobject}
    {o : ObjectRef} (h : lookup oid c.object_hash = some o) :
    c.get_or_create_object oid = (o, c) := by
  rw [Collection.get_or_create_object, h]

theorem get_or_create_eq_of_none {c : Collection} {oid : Ghobject}
    (h : lookup oid c.object_hash = none) :
    c.get_or_create_object oid =
      (⟨c.next_addr, ⟨c.newPayload, [], [], []⟩⟩,
       { c with
           next_addr := c.next_addr + 1,
           object_hash :=
             (oid, (⟨c.next_addr, ⟨c.newPayload, [], [], []⟩⟩ : ObjectRef)) ::
               c.object_hash,
           object_map :=
             insAssign oid (⟨c.next_addr, ⟨c.newPayload, [], [], []⟩⟩ : ObjectRef)
               c.object_map }) := by
  rw [Collection.get_or_create_object, h]
  rfl

theorem Object.read_write (o : Object) (offset : Nat) (src : Bytes)
    (h : o.data.WFpages) :
    (o.write offset src).read offset src.length = src := by
  obtain ⟨data, xa, hdr, om⟩ := o
  cases data with
  | bufferlist d =>
    rw [Object.write]
    dsimp only
    rw [Object.read]
    exact bufferlistRead_write d offset src
  | pageset ps dl pgs =>
    obtain ⟨hps, hwf⟩ := h
    rw [Object.write]
    dsimp only
    rw [Object.read]
    obtain ⟨_, hget, _⟩ := pagedWriteBytes_spec ps hps src pgs offset hwf
    apply List.ext_getElem
    · simp
    · intro i h1 h2
      have hi : i < src.length := by simpa using h1
      rw [List.getElem_map, List.getElem_range]
      rw [hget i hi]
      rfl

/-! ## The claims -/

/-- C1: the two indices of a collection always hold identical key sets (with
the containers' own storage invariants), from the freshly constructed empty
collection onward: `get_or_create_object`, `decode`, and the (spec-modelled)
remove and move-rename handlers all preserve the invariant. -/
theorem C1_dual_index_invariant :
    (∀ (ups : Bool) (psz : Nat), (Collection.init ups psz).Inv) ∧
    (∀ (c : Collection) (oid : Ghobject), c.Inv →
      ((c.get_or_create_object oid).2).Inv) ∧
    (∀ (c c2 : Collection) (s r : Bytes), c.Inv →
      c.decode s = .ok (c2, r) → c2.Inv) ∧
    (∀ (c : Collection) (oid : Ghobject), c.Inv →
      (c.remove_object oid).Inv) ∧
    (∀ (src dst : Collection) (oldoid newoid : Ghobject),
      src.Inv → dst.Inv →
      ((collection_move_rename src dst oldoid newoid).1.Inv ∧
        (collection_move_rename src dst oldoid newoid).2.Inv)) := by
  refine ⟨Inv_init, ?_, ?_, ?_, ?_⟩
  · intro c oid h
    exact Inv_get_or_create h oid
  · intro c c2 s r h hdec
    exact Collection.decode_Inv h hdec
  · intro c oid h
    exact Inv_remove h oid
  · intro src dst o1 o2 hs hd
    exact Inv_move_rename hs hd o1 o2

/-- C2: `get_or_create_object` is idempotent: a second call with the same key
returns the very same reference and leaves the collection unchanged; the first
call inserts a newly constructed object into both indices when the key is
absent, and returns the stored object without constructing when present. -/
theorem C2_get_or_create_idempotent (c : Collection) (oid : Ghobject) :
    (((c.get_or_create_object oid).2).get_or_create_object oid).1 =
      (c.get_or_create_object oid).1 ∧
    (((c.get_or_create_object oid).2).get_or_create_object oid).2 =
      (c.get_or_create_object oid).2 ∧
    (lookup oid c.object_hash = none →
      lookup oid ((c.get_or_create_object oid).2).object_hash =
        some (c.get_or_create_object oid).1 ∧
      lookup oid ((c.get_or_create_object oid).2).object_map =
        some (c.get_or_create_object oid).1 ∧
      (c.get_or_create_object oid).1.addr = c.next_addr ∧
      ((c.get_or_create_object oid).2).next_addr = c.next_addr + 1) ∧
    (∀ o, lookup oid c.object_hash = some o →
      (c.get_or_create_object oid).1 = o ∧
      (c.get_or_create_object oid).2 = c) := by
  cases hl : lookup oid c.object_hash with
  | some o0 =>
    rw [get_or_create_eq_of_some hl]
    dsimp only
    rw [get_or_create_eq_of_some hl]
    refine ⟨rfl, rfl, ?_, ?_⟩
    · intro hn
      exact Option.noConfusion hn
    · intro o2 h2
      injection h2 with h3
      exact ⟨h3, rfl⟩
  | none =>
    rw [get_or_create_eq_of_none hl]
    dsimp only
    have hl2 : lookup oid
        ((oid, (⟨c.next_addr, ⟨c.newPayload, [], [], []⟩⟩ : ObjectRef)) ::
          c.object_hash) =
        some (⟨c.next_addr, ⟨c.newPayload, [], [], []⟩⟩ : ObjectRef) := by
      rw [lookup, if_pos rfl]
    rw [get_or_create_eq_of_some hl2]
    refine ⟨rfl, rfl, ?_, ?_⟩
    · intro _
      refine ⟨hl2, ?_, rfl, rfl⟩
      exact lookup_insAssign_self oid _ c.object_map
    · intro o2 h2
      exact Option.noConfusion h2

/-- C3: decoding the bytes `Collection::encode` produced into a fresh
collection reconstructs the same observable state: same ordered key list,
same flag and collection xattrs, same per-object state (payload bytes, xattrs,
omap header, omap), and the rebuilt hash index holds the same key set as the
rebuilt ordered index. -/
theorem C3_encode_decode_roundtrip (c : Collection) (a0 : Nat)
    (h : c.WFenc) :
    ∃ c2 : Collection, (c.emptyLike a0).decode c.encode = .ok (c2, []) ∧
      keys c2.object_map = keys c.object_map ∧
      c2.use_page_set = c.use_page_set ∧
      c2.xattr = c.xattr ∧
      c2.object_map.map obsEntry = c.object_map.map obsEntry ∧
      c2.sameKeys := by
  have hdec := collection_decode_encode c a0 [] h
  rw [List.append_nil] at hdec
  refine ⟨_, hdec, keys_reIds a0 c.object_map, rfl, rfl,
    obs_reIds a0 c.object_map, ?_⟩
  intro k
  dsimp only
  rw [lookup_hInsAll_isSome k c.object_map a0 []]
  have h2 : (lookup k (reIds a0 c.object_map)).isSome ↔ k ∈ keys c.object_map := by
    rw [lookup_isSome_iff_mem, keys_reIds]
  rw [h2]
  simp [lookup]

/-- C3 witness: the round trip discharged on `sampleCollection`. -/
theorem C3_roundtrip_witness :
    sampleCollection.WFenc ∧
    (∃ c2 : Collection,
      (sampleCollection.emptyLike 5).decode sampleCollection.encode =
        .ok (c2, []) ∧
      keys c2.object_map = keys sampleCollection.object_map ∧
      c2.use_page_set = sampleCollection.use_page_set ∧
      c2.xattr = sampleCollection.xattr ∧
      c2.object_map.map obsEntry = sampleCollection.object_map.map obsEntry ∧
      c2.sameKeys) :=
  ⟨by decide, C3_encode_decode_roundtrip sampleCollection 5 (by decide)⟩

/-- C4: writing a byte string at an offset and reading the same range back,
with no intervening mutation, returns exactly the written bytes, for either
payload variant. -/
theorem C4_read_after_write (o : Object) (offset : Nat) (src : Bytes)
    (h : o.data.WFpages) :
    (o.write offset src).read offset src.length = src :=
  Object.read_write o offset src h

/-- C4 witness: a paged object with page size 4, written across a page
boundary at offset 3. -/
theorem C4_read_after_write_witness :
    samplePagedObject.data.WFpages ∧
    (samplePagedObject.write 3 sampleSrc).read 3 sampleSrc.length =
      sampleSrc :=
  ⟨by decide, C4_read_after_write samplePagedObject 3 sampleSrc (by decide)⟩

/-- C5 (amended): `used_bytes` returns the sum of `get_size` over all objects
in the collection's ordered index — in particular `0` for an empty
collection — but its body acquires no lock on the index. -/
theorem C5_used_bytes_sum : ∀ c : Collection,
    c.used_bytes = (c.object_map.map (fun p => p.2.obj.get_size)).sum ∧
    (c.object_map = [] → c.used_bytes = 0) ∧
    used_bytes_locks = [] := by
  intro c
  have hb : c.used_bytes = (c.object_map.map (fun p => p.2.obj.get_size)).sum := by
    rw [Collection.used_bytes,
      foldl_add_sum (fun p => p.2.obj.get_size) c.object_map 0]
    omega
  refine ⟨hb, ?_, rfl⟩
  intro he
  rw [hb, he]
  rfl

/-- C5 counterexample: the body of `Collection::used_bytes` performs no
read-lock acquisition on the index lock, refuting the claim's "computed under
a read lock on the collection's index". -/
theorem C5_no_read_lock : LockOp.rlockIndex ∉ used_bytes_locks := by decide

/-- C6: on a key-sorted omap, `lower_bound` places the cursor on the first
entry with key `≥ k` (every earlier entry is `< k`, the cursor entry is
`≥ k`, and the cursor is invalid exactly when no such entry exists), and
`upper_bound` likewise with strict `>`. -/
theorem C6_omap_iterator_bounds (it : OmapIteratorImpl) (k : Str)
    (h : SortedKeys it.omap) :
    ((it.lower_bound k).pos = lbIdx k it.omap ∧
      (∀ j p, j < (it.lower_bound k).pos → it.omap.get? j = some p → p.1 < k) ∧
      (∀ p, it.omap.get? (it.lower_bound k).pos = some p → k ≤ p.1) ∧
      ((it.lower_bound k).valid = false ↔ ∀ p ∈ it.omap, p.1 < k)) ∧
    ((it.upper_bound k).pos = ubIdx k it.omap ∧
      (∀ j p, j < (it.upper_bound k).pos → it.omap.get? j = some p → p.1 ≤ k) ∧
      (∀ p, it.omap.get? (it.upper_bound k).pos = some p → k < p.1) ∧
      ((it.upper_bound k).valid = false ↔ ∀ p ∈ it.omap, p.1 ≤ k)) := by
  refine ⟨⟨rfl, ?_, ?_, ?_⟩, ⟨rfl, ?_, ?_, ?_⟩⟩
  · intro j p hj hp
    exact lbIdx_before k it.omap j p hj hp
  · intro p hp
    exact lbIdx_at k it.omap p hp
  · rw [OmapIteratorImpl.valid]
    dsimp only [OmapIteratorImpl.lower_bound]
    rw [decide_eq_false_iff_not]
    constructor
    · intro hnot
      have hle := lbIdx_le_length k it.omap
      have heq : lbIdx k it.omap = it.omap.length := by omega
      exact (lbIdx_eq_length_iff k it.omap).mp heq
    · intro hall
      rw [(lbIdx_eq_length_iff k it.omap).mpr hall]
      omega
  · intro j p hj hp
    exact ubIdx_before k it.omap j p hj hp
  · intro p hp
    exact ubIdx_at k it.omap p hp
  · rw [OmapIteratorImpl.valid]
    dsimp only [OmapIteratorImpl.upper_bound]
    rw [decide_eq_false_iff_not]
    constructor
    · intro hnot
      have hle := ubIdx_le_length k it.omap
      have heq : ubIdx k it.omap = it.omap.length := by omega
      exact (ubIdx_eq_length_iff k it.omap).mp heq
    · intro hall
      rw [(ubIdx_eq_length_iff k it.omap).mpr hall]
      omega

/-- C6 witness: the spec scenario — omap `{"a": "1", "c": "3"}`,
`lower_bound "b"` leaves the cursor on `"c"`. -/
theorem C6_omap_iterator_witness :
    SortedKeys sampleOmapIter.omap ∧
    (sampleOmapIter.lower_bound [98]).key = some [99] ∧
    (((sampleOmapIter.lower_bound [98]).pos = lbIdx [98] sampleOmapIter.omap ∧
      (∀ j p, j < (sampleOmapIter.lower_bound [98]).pos →
        sampleOmapIter.omap.get? j = some p → p.1 < [98]) ∧
      (∀ p, sampleOmapIter.omap.get? (sampleOmapIter.lower_bound [98]).pos =
        some p → [98] ≤ p.1) ∧
      ((sampleOmapIter.lower_bound [98]).valid = false ↔
        ∀ p ∈ sampleOmapIter.omap, p.1 < [98])) ∧
    ((sampleOmapIter.upper_bound [98]).pos = ubIdx [98] sampleOmapIter.omap ∧
      (∀ j p, j < (sampleOmapIter.upper_bound [98]).pos →
        sampleOmapIter.omap.get? j = some p → p.1 ≤ [98]) ∧
      (∀ p, sampleOmapIter.omap.get? (sampleOmapIter.upper_bound [98]).pos =
        some p → [98] < p.1) ∧
      ((sampleOmapIter.upper_bound [98]).valid = false ↔
        ∀ p ∈ sampleOmapIter.omap, p.1 ≤ [98]))) :=
  ⟨by decide, by decide,
    C6_omap_iterator_bounds sampleOmapIter [98] (by decide)⟩

/-- C7: `get_object` returns the stored reference when the key is in
`object_hash` and an empty reference when absent, and in both cases returns
the collection state unchanged — it never inserts and never constructs. -/
theorem C7_get_object_frame : ∀ (c : Collection) (oid : Ghobject),
    (c.get_object oid).2 = c ∧
    (∀ o, lookup oid c.object_hash = some o →
      (c.get_object oid).1 = some o) ∧
    (lookup oid c.object_hash = none → (c.get_object oid).1 = none) := by
  intro c oid
  cases hl : lookup oid c.object_hash with
  | none =>
    rw [Collection.get_object, hl]
    refine ⟨rfl, ?_, fun _ => rfl⟩
    intro o ho
    exact Option.noConfusion ho
  | some o0 =>
    rw [Collection.get_object, hl]
    refine ⟨rfl, ?_, ?_⟩
    · intro o ho
      injection ho with h2
      subst h2
      rfl
    · intro ho
      exact Option.noConfusion ho

/-- C8: the decoders fail with a fatal error when the stream's declared
minimum-compatible version exceeds the supported version `1`, or when the
stream is truncated relative to its declared payload length; and they succeed
on well-formed streams their encoders produce. -/
theorem C8_decode_fatal :
    (∀ (ups : Bool) (psz : Nat) (sv cv : Byte) (s : Bytes), 1 < cv.val →
      Object.decode ups psz (sv :: cv :: s) = .error .versionTooNew) ∧
    (∀ (c0 : Collection) (sv cv : Byte) (s : Bytes), 1 < cv.val →
      c0.decode (sv :: cv :: s) = .error .versionTooNew) ∧
    (∀ (ups : Bool) (psz : Nat) (sv cv : Byte) (len : Nat) (s : Bytes),
      ¬ 1 < cv.val → len < 2 ^ 32 → s.length < len →
      Object.decode ups psz (sv :: cv :: (encLE 4 len ++ s)) =
        .error .truncated) ∧
    (∀ (c0 : Collection) (sv cv : Byte) (len : Nat) (s : Bytes),
      ¬ 1 < cv.val → len < 2 ^ 32 → s.length < len →
      c0.decode (sv :: cv :: (encLE 4 len ++ s)) = .error .truncated) ∧
    (∀ (o : Object) (ups : Bool) (psz : Nat) (r : Bytes),
      o.WFenc → o.data.variantOk ups psz →
      Object.decode ups psz (o.encode ++ r) = .ok (o, r)) ∧
    (∀ (c : Collection) (a0 : Nat), c.WFenc →
      ∃ c2 r, (c.emptyLike a0).decode c.encode = .ok (c2, r)) := by
  refine ⟨?_, ?_, ?_, ?_, ?_, ?_⟩
  · intro ups psz sv cv s hcv
    rw [Object.decode]
    exact decEnv_versionTooNew 1 _ sv cv s hcv
  · intro c0 sv cv s hcv
    rw [Collection.decode]
    exact decEnv_versionTooNew 1 _ sv cv s hcv
  · intro ups psz sv cv len s hcv hlen hs
    rw [Object.decode]
    exact decEnv_truncated 1 _ sv cv len s hcv hlen hs
  · intro c0 sv cv len s hcv hlen hs
    rw [Collection.decode]
    exact decEnv_truncated 1 _ sv cv len s hcv hlen hs
  · intro o ups psz r hwf hv
    exact object_decode_encode o ups psz r hwf hv
  · intro c a0 hc
    have hrt := collection_decode_encode c a0 [] hc
    rw [List.append_nil] at hrt
    exact ⟨_, _, hrt⟩

/-- C9: inside the version-1 envelope, both object encoders emit the
payload-specific fields first (the data buffer, or `data_len` then the page
set) and then the common fields in the fixed order xattr, omap header, omap;
and the decoder consumes a stream of exactly that shape back into exactly
those fields. -/
theorem C9_encoding_order :
    (∀ (o : Object) (d : Bytes), o.data = .bufferlist d →
      o.encode = encEnv 1 1 (encBytes d ++
        (encMap encBytes encBytes o.xattr ++ encBytes o.omap_header ++
          encMap encBytes encBytes o.omap))) ∧
    (∀ (o : Object) (ps dl : Nat) (pgs : List (Nat × Bytes)),
      o.data = .pageset ps dl pgs →
      o.encode = encEnv 1 1 (encLE 8 dl ++ encPageSet pgs ++
        (encMap encBytes encBytes o.xattr ++ encBytes o.omap_header ++
          encMap encBytes encBytes o.omap))) ∧
    (∀ (d : Bytes) (xa om : List (Str × Bytes)) (hdr : Bytes) (psz : Nat)
      (r : Bytes), (⟨.bufferlist d, xa, hdr, om⟩ : Object).WFenc →
      Object.decode false psz (encEnv 1 1 (encBytes d ++
        (encMap encBytes encBytes xa ++ encBytes hdr ++
          encMap encBytes encBytes om)) ++ r) =
        .ok (⟨.bufferlist d, xa, hdr, om⟩, r)) ∧
    (∀ (ps dl : Nat) (pgs : List (Nat × Bytes)) (xa om : List (Str × Bytes))
      (hdr : Bytes) (r : Bytes),
      (⟨.pageset ps dl pgs, xa, hdr, om⟩ : Object).WFenc →
      Object.decode true ps (encEnv 1 1 (encLE 8 dl ++ encPageSet pgs ++
        (encMap encBytes encBytes xa ++ encBytes hdr ++
          encMap encBytes encBytes om)) ++ r) =
        .ok (⟨.pageset ps dl pgs, xa, hdr, om⟩, r)) := by
  refine ⟨?_, ?_, ?_, ?_⟩
  · intro o d hd
    obtain ⟨data, xa, hdr, om⟩ := o
    dsimp only at hd
    subst hd
    rfl
  · intro o ps dl pgs hd
    obtain ⟨data, xa, hdr, om⟩ := o
    dsimp only at hd
    subst hd
    rfl
  · intro d xa om hdr psz r hwf
    have := object_decode_encode ⟨.bufferlist d, xa, hdr, om⟩ false psz r hwf rfl
    simpa [Object.encode, Object.encode_base] using this
  · intro ps dl pgs xa om hdr r hwf
    have := object_decode_encode ⟨.pageset ps dl pgs, xa, hdr, om⟩ true ps r hwf
      ⟨rfl, rfl⟩
    simpa [Object.encode, Object.encode_base] using this

/-- C10: the iterator's `key` and `value` dereference the cursor; in this
total embedding they are option-valued and return `none` exactly when
`valid()` is `false`, so under the unstated precondition `valid() = true` the
`none` branch is unreachable. -/
theorem C10_key_value_need_valid : ∀ it : OmapIteratorImpl,
    (it.key = none ↔ it.valid = false) ∧
    (it.value = none ↔ it.valid = false) ∧
    (it.valid = true → it.key.isSome ∧ it.value.isSome) := by
  intro it
  have hk : it.key = none ↔ it.omap.length ≤ it.pos := by
    rw [OmapIteratorImpl.key]
    simp [List.get?_eq_none]
  have hv : it.value = none ↔ it.omap.length ≤ it.pos := by
    rw [OmapIteratorImpl.value]
    simp [List.get?_eq_none]
  have hval : it.valid = false ↔ it.omap.length ≤ it.pos := by
    rw [OmapIteratorImpl.valid, decide_eq_false_iff_not]
    omega
  refine ⟨hk.trans hval.symm, hv.trans hval.symm, ?_⟩
  intro ht
  constructor
  · cases ho : it.key with
    | none =>
      rw [hk] at ho
      rw [OmapIteratorImpl.valid] at ht
      simp at ht
      omega
    | some v => rfl
  · cases ho : it.value with
    | none =>
      rw [hv] at ho
      rw [OmapIteratorImpl.valid] at ht
      simp at ht
      omega
    | some v => rfl

end MemStore
